import Mathlib

/-!
# PacketSage latency aggregation engine: verification of the specification

Shallow embedding of the eBPF interrupt-latency programs `softirqs.bpf.c`
and `hardirqs.bpf.c` (the latency aggregation core: per-context pending
timestamp, delta computation, unit conversion, scope filtering, sum-mode
and histogram-mode aggregate updates), together with theorems settling the
spec claims about them.

Machine integers: timestamps and deltas are `u64` in the source; we model
them as `Nat`, with the wrap-around subtraction `now - *tsp` made explicit
(`u64sub`).  Counter increments are monotone event counts, where overflow
is immaterial to the claims, and are modelled as plain `Nat` addition.
-/

/-- Modulus of the C `u64` type. -/
def U64 : Nat := 2 ^ 64

/-- Wrap-around `u64` subtraction `a - b`, as in `delta = bpf_ktime_get_ns() - *tsp`. -/
def u64sub (a b : Nat) : Nat := (a + (U64 - b % U64)) % U64

/-- Modelled from the spec: `MAX_SLOTS`, the histogram size, comes from the
headers `softirqs.h`/`hardirqs.h`, which are not in the source tree; the
spec's histogram example fixes `MAX_SLOTS = 20`. -/
def MAX_SLOTS : Nat := 20

/-- `NR_SOFTIRQS`, the number of softirq vectors, comes from the kernel's
`vmlinux.h` (not part of this repository); the kernel defines 10 vectors.
None of the claims depends on its numeric value. -/
def NR_SOFTIRQS : Nat := 10

/-- Modelled from the spec: the `log2` helper lives in `bits.bpf.h`, which is
not in the source tree.  The spec states the bucketing rule as
`slot = floor(log2(delta))` if `delta > 0` else `0`.  Fuel-based floor of
the base-2 logarithm, with `log2 0 = 0`. -/
def log2Aux : Nat → Nat → Nat
  | 0, _ => 0
  | fuel + 1, n => if n < 2 then 0 else log2Aux fuel (n / 2) + 1

/-- Modelled from the spec: floor of the base-2 logarithm (`log2 0 = 0`). -/
def log2 (n : Nat) : Nat := log2Aux n n

/-! ## softirqs.bpf.c

The per-CPU array `start` (max_entries 1, key always 0) is one pending
timestamp slot per execution context; the claims are about a single context,
so the state carries one `Option Nat` slot.  `counts`, `time` and `hists`
are the global statistics arrays `__u64 counts[NR_SOFTIRQS]`,
`__u64 time[NR_SOFTIRQS]`, `struct hist hists[NR_SOFTIRQS]`
(`struct hist` is `slots[MAX_SLOTS]`, modelled from the spec since
`softirqs.h` is not in the source tree). -/

namespace Softirqs

structure State where
  start : Option Nat
  counts : List Nat
  time : List Nat
  hists : List (List Nat)
deriving DecidableEq, Repr

/-- Zero-valued initial state: all statistics arrays start zeroed
(`= {}` initialisers), no pending timestamp. -/
def init : State :=
  { start := none
    counts := List.replicate NR_SOFTIRQS 0
    time := List.replicate NR_SOFTIRQS 0
    hists := List.replicate NR_SOFTIRQS (List.replicate MAX_SLOTS 0) }

/-- Well-formedness: the statistics arrays have their declared C sizes. -/
def State.wf (st : State) : Prop :=
  st.counts.length = NR_SOFTIRQS ∧ st.time.length = NR_SOFTIRQS ∧
  st.hists.length = NR_SOFTIRQS ∧ ∀ h ∈ st.hists, h.length = MAX_SLOTS

instance (st : State) : Decidable st.wf := by
  unfold State.wf; infer_instance

/-- `handle_entry` of softirqs.bpf.c: stores the entry timestamp `ts`
(`bpf_ktime_get_ns()`) into the per-CPU slot, overwriting any previous
value (`bpf_map_update_elem(&start, &key, &ts, BPF_ANY)`).  The vector
number `vec_nr` is not inspected. -/
def handle_entry (vec_nr : Nat) (ts : Nat) (st : State) : State :=
  { st with start := some ts }

/-- The delta computation of `handle_exit` (softirqs.bpf.c lines 91-94):
`delta = bpf_ktime_get_ns() - *tsp; if (!targ_ns) delta /= 1000U;`. -/
def delta_of (targ_ns : Bool) (now ts : Nat) : Nat :=
  let delta := u64sub now ts
  if !targ_ns then delta / 1000 else delta

/-- `handle_exit` of softirqs.bpf.c: validates the vector number, looks up
the pending timestamp (returning unchanged when absent — note the lookup
does not delete the entry), computes the delta, and updates either the
sum-mode counters or the log2 histogram, clamping the slot to
`MAX_SLOTS - 1`. -/
def handle_exit (targ_ns targ_dist : Bool) (vec_nr : Nat) (now : Nat) (st : State) : State :=
  if NR_SOFTIRQS ≤ vec_nr then st
  else
    match st.start with
    | none => st
    | some ts =>
      let delta := delta_of targ_ns now ts
      if !targ_dist then
        { st with
          counts := st.counts.set vec_nr (st.counts.getD vec_nr 0 + 1)
          time := st.time.set vec_nr (st.time.getD vec_nr 0 + delta) }
      else
        let slot0 := log2 delta
        let slot := if MAX_SLOTS ≤ slot0 then MAX_SLOTS - 1 else slot0
        let hist := st.hists.getD vec_nr []
        { st with
          hists := st.hists.set vec_nr (hist.set slot (hist.getD slot 0 + 1)) }

/-- One matched begin/end pair: `handle_entry` at the first timestamp, then
`handle_exit` at the second. -/
def runPair (targ_ns targ_dist : Bool) (vec_nr : Nat) (st : State) (p : Nat × Nat) : State :=
  handle_exit targ_ns targ_dist vec_nr p.2 (handle_entry vec_nr p.1 st)

/-- A sequence of matched begin/end pairs on one context and category. -/
def runPairs (targ_ns targ_dist : Bool) (vec_nr : Nat) (ps : List (Nat × Nat)) (st : State) : State :=
  ps.foldl (runPair targ_ns targ_dist vec_nr) st

/-- Sum of the histogram slots of category `vec_nr`. -/
def State.histSum (st : State) (vec_nr : Nat) : Nat := (st.hists.getD vec_nr []).sum

end Softirqs

/-! ## hardirqs.bpf.c

The `infos` hash map is keyed by `struct irq_key` (a fixed-length handler
name, `IRQ_NAME_LEN` bytes) and valued by `struct info`; `hardirqs.h` is not
in the source tree, but the exit handler accesses exactly the fields
`info->count` and `info->slots[...]`, so `Info` carries those two fields.
The per-CPU `start` slot and the cgroup map are used but not declared in
hardirqs.bpf.c (declaration slips); `start` is modelled like the softirqs
slot, and `bpf_current_task_under_cgroup(&cgroup_map, 0)` is modelled as the
boolean `under_cgroup` supplied with the event.  Name truncation to
`IRQ_NAME_LEN` happens before the model's `String` key.  Two further slips
in the C are modelled as written where they have observable behaviour and
noted where they do not: `bpf_map_lookup_or_try_init(&infos, &key, &zero)`
passes the scratch `u32 key` where `&ikey` (the name key) is meant — the
map's declared key type is `struct irq_key`, so the model keys by the name;
and in the histogram branch the clamp line assigns an undeclared identifier
`slots` instead of `slot`, so `slot` is never clamped and the increment
`info->slots[slot]++` can fall outside the `MAX_SLOTS` array (an
out-of-bounds write in C; in the model, a `List.set` beyond the length,
which changes nothing). -/

namespace Hardirqs

structure Info where
  count : Nat
  slots : List Nat
deriving DecidableEq, Repr

structure State where
  start : Option Nat
  infos : List (String × Info)
deriving DecidableEq, Repr

/-- The `static struct info zero` used to initialise new map entries. -/
def zero : Info := { count := 0, slots := List.replicate MAX_SLOTS 0 }

def MAX_ENTRIES : Nat := 256

/-- Modelled from the spec: `bpf_map_lookup_or_try_init` is declared in
`maps.bpf.h`, whose body is absent from the source tree.  Per the spec, the
category entry is looked up or lazily created zero-valued, up to the fixed
capacity; beyond capacity the sample is dropped (`none`). -/
def lookupOrTryInit (m : List (String × Info)) (k : String) : Option (List (String × Info)) :=
  if (m.find? (fun p => p.1 = k)).isSome then some m
  else if m.length < MAX_ENTRIES then some (m ++ [(k, zero)]) else none

/-- Mutation through the `info` pointer returned by the lookup: update the
entry with key `k`. -/
def updateInfo (m : List (String × Info)) (k : String) (f : Info → Info) :
    List (String × Info) :=
  m.map (fun p => if p.1 = k then (p.1, f p.2) else p)

/-- Value of the `infos` map at key `k`. -/
def State.info (st : State) (k : String) : Option Info :=
  (st.infos.find? (fun p => p.1 = k)).map (fun p => p.2)

/-- `handle_entry` of hardirqs.bpf.c: the cgroup filter is checked first
(`if (filter_cg && !bpf_current_task_under_cgroup(...)) return 0;`);
in counting mode (`do_count`, used but not declared in the file) the
category's count is incremented; otherwise the entry timestamp is stored
into the per-CPU slot. -/
def handle_entry (filter_cg under_cgroup do_count : Bool) (name : String) (ts : Nat)
    (st : State) : State :=
  if filter_cg && !under_cgroup then st
  else if do_count then
    match lookupOrTryInit st.infos name with
    | none => st
    | some m => { st with infos := updateInfo m name (fun i => { i with count := i.count + 1 }) }
  else { st with start := some ts }

/-- The delta computation of `handle_exit` (hardirqs.bpf.c lines 130-133):
`delta = bpf_ktime_get_ns() - *tsp; if (!targ_ns) delta /= 1000U;`. -/
def delta_of (targ_ns : Bool) (now ts : Nat) : Nat :=
  let delta := u64sub now ts
  if !targ_ns then delta / 1000 else delta

/-- `handle_exit` of hardirqs.bpf.c: cgroup filter first, then the pending
timestamp lookup (no deletion), delta computation, and the aggregate update:
in sum mode `info->count += delta`; in histogram mode `slot = log2(delta)`
with the broken clamp (the line `slots = MAX_SLOTS - 1;` does not change
`slot`), then `info->slots[slot]++`. -/
def handle_exit (filter_cg under_cgroup targ_ns targ_dist : Bool) (name : String)
    (now : Nat) (st : State) : State :=
  if filter_cg && !under_cgroup then st
  else
    match st.start with
    | none => st
    | some ts =>
      let delta := delta_of targ_ns now ts
      match lookupOrTryInit st.infos name with
      | none => st
      | some m =>
        if !targ_dist then
          { st with infos := updateInfo m name (fun i => { i with count := i.count + delta }) }
        else
          let slot := log2 delta
          let bump := fun (i : Info) => { i with slots := i.slots.set slot (i.slots.getD slot 0 + 1) }
          { st with infos := updateInfo m name bump }

end Hardirqs

/-! ## Concurrent counter updates

An interleaving model for the aggregate updates of the two exit handlers.
softirqs.bpf.c updates every counter with `__sync_fetch_and_add`, a single
indivisible read-modify-write step; hardirqs.bpf.c updates with plain
`info->count += delta` and `info->slots[slot]++`, i.e. a read of the shared
cell into a register followed by a separate write back.  A thread is a
straight-line program of micro-operations over one shared cell, and a
schedule chooses which thread steps next. -/

namespace Conc

inductive Op where
  /-- read the shared cell into the thread's register (first half of `x += d`) -/
  | load : Op
  /-- write register + d back to the shared cell (second half of `x += d`) -/
  | storeAdd : Nat → Op
  /-- indivisible `__sync_fetch_and_add(&x, d)` -/
  | fetchAdd : Nat → Op
deriving DecidableEq, Repr

structure Thread where
  prog : List Op
  reg : Nat
deriving DecidableEq, Repr

structure CState where
  shared : Nat
  threads : List Thread
deriving DecidableEq, Repr

/-- Execute the next micro-operation of one thread against the shared cell,
returning the new shared value and the advanced thread. -/
def stepThread (sh : Nat) (t : Thread) : Nat × Thread :=
  match t.prog with
  | [] => (sh, t)
  | op :: rest =>
    match op with
    | Op.load => (sh, { prog := rest, reg := sh })
    | Op.storeAdd d => (t.reg + d, { prog := rest, reg := t.reg })
    | Op.fetchAdd d => (sh + d, { prog := rest, reg := t.reg })

/-- Schedule thread `i` for one micro-step (no effect on an invalid index or
a finished thread). -/
def step (s : CState) (i : Nat) : CState :=
  match s.threads.get? i with
  | none => s
  | some t =>
    let r := stepThread s.shared t
    { shared := r.1, threads := s.threads.set i r.2 }

/-- Run a whole schedule. -/
def run (s : CState) (sched : List Nat) : CState := sched.foldl step s

/-- The softirqs.bpf.c update `__sync_fetch_and_add(&x, d)` as a thread
program: one indivisible step. -/
def fetchAndAddProg (d : Nat) : List Op := [Op.fetchAdd d]

/-- The hardirqs.bpf.c update `info->count += delta` (and likewise
`info->slots[slot]++`) as a thread program: a read followed by a write. -/
def plainAddProg (d : Nat) : List Op := [Op.load, Op.storeAdd d]

/-- All threads have run to completion. -/
def CState.done (s : CState) : Bool := s.threads.all (fun t => t.prog.isEmpty)

/-- Invariant for a pool of `__sync_fetch_and_add` threads: the shared cell
plus `d` for every thread still to run equals the final total, and every
thread is either finished or one whole fetch-and-add. -/
def Inv (d total : Nat) (s : CState) : Prop :=
  s.shared + d * s.threads.countP (fun t => !t.prog.isEmpty) = total ∧
  ∀ t ∈ s.threads, t.prog = [] ∨ t.prog = fetchAndAddProg d

end Conc

/-! ## General-purpose lemmas (lists as fixed-size arrays) -/

theorem u64sub_eq_sub (a b : Nat) (hba : b ≤ a) (ha : a < U64) : u64sub a b = a - b := by
  have hb : b % U64 = b := Nat.mod_eq_of_lt (lt_of_le_of_lt hba ha)
  have h1 : a + (U64 - b % U64) = (a - b) + U64 := by
    rw [hb]
    have hbU : b ≤ U64 := le_of_lt (lt_of_le_of_lt hba ha)
    omega
  rw [u64sub, h1, Nat.add_mod_right, Nat.mod_eq_of_lt]
  omega

theorem getD_set_self {α : Type} (l : List α) (i : Nat) (v d : α) (h : i < l.length) :
    (l.set i v).getD i d = v := by
  induction l generalizing i with
  | nil => simp at h
  | cons a tl ih =>
    cases i with
    | zero => simp [List.set, List.getD]
    | succ j =>
      simp only [List.set, List.getD_cons_succ]
      exact ih j (by simpa using h)

theorem sum_set_add_one (l : List Nat) (i : Nat) (h : i < l.length) :
    (l.set i (l.getD i 0 + 1)).sum = l.sum + 1 := by
  induction l generalizing i with
  | nil => simp at h
  | cons a tl ih =>
    cases i with
    | zero => simp [List.set, List.getD]; omega
    | succ j =>
      simp only [List.set, List.getD_cons_succ, List.sum_cons]
      have := ih j (by simpa using h)
      omega

theorem getD_mem_of_lt {α : Type} (l : List α) (i : Nat) (d : α) (h : i < l.length) :
    l.getD i d ∈ l := by
  induction l generalizing i with
  | nil => simp at h
  | cons a tl ih =>
    cases i with
    | zero => simp [List.getD]
    | succ j =>
      simp only [List.getD_cons_succ]
      exact List.mem_cons_of_mem _ (ih j (by simpa using h))

theorem clamp_eq_min (s : Nat) :
    (if MAX_SLOTS ≤ s then MAX_SLOTS - 1 else s) = min s (MAX_SLOTS - 1) := by
  unfold MAX_SLOTS
  split <;> omega

/-! ## softirqs.bpf.c: step lemmas -/

theorem Softirqs.handle_entry_start (vec_nr ts : Nat) (st : Softirqs.State) :
    Softirqs.handle_entry vec_nr ts st = { st with start := some ts } := rfl

theorem Softirqs.runPair_sum_eq (targ_ns : Bool) (vec : Nat) (st : Softirqs.State)
    (p : Nat × Nat) (hv : vec < NR_SOFTIRQS) :
    Softirqs.runPair targ_ns false vec st p =
      { st with
        start := some p.1
        counts := st.counts.set vec (st.counts.getD vec 0 + 1)
        time := st.time.set vec (st.time.getD vec 0 + Softirqs.delta_of targ_ns p.2 p.1) } := by
  unfold Softirqs.runPair Softirqs.handle_exit Softirqs.handle_entry
  rw [if_neg (Nat.not_le_of_lt hv)]
  rfl

theorem Softirqs.runPair_hist_eq (targ_ns : Bool) (vec : Nat) (st : Softirqs.State)
    (p : Nat × Nat) (hv : vec < NR_SOFTIRQS) :
    Softirqs.runPair targ_ns true vec st p =
      { st with
        start := some p.1
        hists :=
          st.hists.set vec
            ((st.hists.getD vec []).set
              (if MAX_SLOTS ≤ log2 (Softirqs.delta_of targ_ns p.2 p.1) then MAX_SLOTS - 1
               else log2 (Softirqs.delta_of targ_ns p.2 p.1))
              ((st.hists.getD vec []).getD
                (if MAX_SLOTS ≤ log2 (Softirqs.delta_of targ_ns p.2 p.1) then MAX_SLOTS - 1
                 else log2 (Softirqs.delta_of targ_ns p.2 p.1)) 0 + 1)) } := by
  unfold Softirqs.runPair Softirqs.handle_exit Softirqs.handle_entry
  rw [if_neg (Nat.not_le_of_lt hv)]
  rfl

theorem Softirqs.runPair_wf (targ_ns targ_dist : Bool) (vec : Nat) (st : Softirqs.State)
    (p : Nat × Nat) (hwf : st.wf) (hv : vec < NR_SOFTIRQS) :
    (Softirqs.runPair targ_ns targ_dist vec st p).wf := by
  obtain ⟨hc, ht, hh, hs⟩ := hwf
  cases targ_dist with
  | false =>
    rw [Softirqs.runPair_sum_eq targ_ns vec st p hv]
    exact ⟨by simpa using hc, by simpa using ht, hh, hs⟩
  | true =>
    rw [Softirqs.runPair_hist_eq targ_ns vec st p hv]
    refine ⟨hc, ht, by simpa using hh, ?_⟩
    intro h hmem
    rcases List.mem_or_eq_of_mem_set hmem with h1 | h1
    · exact hs h h1
    · subst h1
      rw [List.length_set]
      exact hs _ (getD_mem_of_lt st.hists vec [] (by omega))

theorem Softirqs.runPair_counts (targ_ns : Bool) (vec : Nat) (st : Softirqs.State)
    (p : Nat × Nat) (hwf : st.wf) (hv : vec < NR_SOFTIRQS) :
    (Softirqs.runPair targ_ns false vec st p).counts.getD vec 0 = st.counts.getD vec 0 + 1 := by
  obtain ⟨hc, ht, hh, hs⟩ := hwf
  rw [Softirqs.runPair_sum_eq targ_ns vec st p hv]
  exact getD_set_self _ _ _ _ (by omega)

theorem Softirqs.runPair_histSum (targ_ns : Bool) (vec : Nat) (st : Softirqs.State)
    (p : Nat × Nat) (hwf : st.wf) (hv : vec < NR_SOFTIRQS) :
    (Softirqs.runPair targ_ns true vec st p).histSum vec = st.histSum vec + 1 := by
  obtain ⟨hc, ht, hh, hs⟩ := hwf
  have hlen : (st.hists.getD vec []).length = MAX_SLOTS :=
    hs _ (getD_mem_of_lt st.hists vec [] (by omega))
  have hslot : (if MAX_SLOTS ≤ log2 (Softirqs.delta_of targ_ns p.2 p.1) then MAX_SLOTS - 1
      else log2 (Softirqs.delta_of targ_ns p.2 p.1)) < (st.hists.getD vec []).length := by
    rw [hlen]
    unfold MAX_SLOTS
    split <;> omega
  rw [Softirqs.runPair_hist_eq targ_ns vec st p hv]
  unfold Softirqs.State.histSum
  simp only
  rw [getD_set_self _ _ _ _ (by omega)]
  exact sum_set_add_one _ _ hslot

theorem Softirqs.runPairs_counts (targ_ns : Bool) (vec : Nat) (ps : List (Nat × Nat)) :
    ∀ st : Softirqs.State, st.wf → vec < NR_SOFTIRQS →
      (Softirqs.runPairs targ_ns false vec ps st).counts.getD vec 0 =
        st.counts.getD vec 0 + ps.length := by
  induction ps with
  | nil => intro st _ _; simp [Softirqs.runPairs]
  | cons p ps ih =>
    intro st hwf hv
    have hstep : Softirqs.runPairs targ_ns false vec (p :: ps) st =
        Softirqs.runPairs targ_ns false vec ps (Softirqs.runPair targ_ns false vec st p) := rfl
    rw [hstep, ih _ (Softirqs.runPair_wf targ_ns false vec st p hwf hv) hv,
      Softirqs.runPair_counts targ_ns vec st p hwf hv]
    simp
    omega

theorem Softirqs.runPairs_histSum (targ_ns : Bool) (vec : Nat) (ps : List (Nat × Nat)) :
    ∀ st : Softirqs.State, st.wf → vec < NR_SOFTIRQS →
      (Softirqs.runPairs targ_ns true vec ps st).histSum vec = st.histSum vec + ps.length := by
  induction ps with
  | nil => intro st _ _; simp [Softirqs.runPairs]
  | cons p ps ih =>
    intro st hwf hv
    have hstep : Softirqs.runPairs targ_ns true vec (p :: ps) st =
        Softirqs.runPairs targ_ns true vec ps (Softirqs.runPair targ_ns true vec st p) := rfl
    rw [hstep, ih _ (Softirqs.runPair_wf targ_ns true vec st p hwf hv) hv,
      Softirqs.runPair_histSum targ_ns vec st p hwf hv]
    simp
    omega

/-! ## Claim theorems -/

/-- C1: for a begin at `t1` followed by an end at `t2` on the same context
and category with no intervening begin, the delta recorded by both exit
handlers (`delta = bpf_ktime_get_ns() - *tsp; if (!targ_ns) delta /= 1000U;`)
equals `t2 - t1` when `targ_ns` is true and `(t2 - t1) / 1000` (integer
division) when `targ_ns` is false. -/
theorem claim_C1_delta_unit (targ_ns : Bool) (t1 t2 : Nat) (h12 : t1 ≤ t2) (h2 : t2 < U64) :
    Softirqs.delta_of targ_ns t2 t1 =
      (if targ_ns then t2 - t1 else (t2 - t1) / 1000) ∧
    Hardirqs.delta_of targ_ns t2 t1 =
      (if targ_ns then t2 - t1 else (t2 - t1) / 1000) := by
  unfold Softirqs.delta_of Hardirqs.delta_of
  rw [u64sub_eq_sub t2 t1 h12 h2]
  cases targ_ns <;> simp

theorem claim_C1_delta_unit_witness :
    (1000 : Nat) ≤ 1500 ∧ (1500 : Nat) < U64 ∧
    Softirqs.delta_of true 1500 1000 = 500 ∧
    Softirqs.delta_of false 1500 1000 = 0 ∧
    Hardirqs.delta_of true 1500 1000 = 500 := by
  have h := claim_C1_delta_unit true 1000 1500 (by decide)
    (by unfold U64; exact by norm_num)
  have h' := claim_C1_delta_unit false 1000 1500 (by decide)
    (by unfold U64; exact by norm_num)
  refine ⟨by decide, by unfold U64; norm_num, ?_, ?_, ?_⟩
  · simpa using h.1
  · simpa using h'.1
  · simpa using h.2

/-- C4 counterexample: the exit handler does not remove the pending
timestamp (the source only does `bpf_map_lookup_elem`, never a delete), so
after begin(100) and end(150) the slot still holds 100, and a second end at
160 with no new begin observes that pending timestamp and records a second
sample (`counts[0]` reaches 2).  The claim says the second end observes no
pending timestamp. -/
theorem claim_C4_counterexample :
    (Softirqs.handle_exit true false 0 150 (Softirqs.handle_entry 0 100 Softirqs.init)).start
      = some 100 ∧
    (Softirqs.handle_exit true false 0 160
        (Softirqs.handle_exit true false 0 150
          (Softirqs.handle_entry 0 100 Softirqs.init))).counts.getD 0 0 = 2 := by
  constructor <;> rfl

/-- C4 amended: the exit handler's read of the pending timestamp returns the
pending value when present but does not remove it: neither exit handler ever
modifies the pending slot, so a second end on the same context with no new
begin observes the same pending timestamp (and records a further sample from
it).  An end with no pending timestamp still returns without changes. -/
theorem claim_C4_amended (targ_ns targ_dist filter_cg under_cgroup : Bool)
    (vec_nr now now2 : Nat) (name : String)
    (st : Softirqs.State) (st2 : Hardirqs.State) :
    (Softirqs.handle_exit targ_ns targ_dist vec_nr now st).start = st.start ∧
    (Hardirqs.handle_exit filter_cg under_cgroup targ_ns targ_dist name now2 st2).start
      = st2.start := by
  constructor
  · unfold Softirqs.handle_exit
    split
    · rfl
    · split
      · rfl
      · split <;> rfl
  · unfold Hardirqs.handle_exit
    split
    · rfl
    · split
      · rfl
      · split
        · rfl
        · split <;> rfl

/-- C5: an end event delivered on a context with no pending begin timestamp
leaves both programs' states entirely unchanged — no count, total time or
histogram slot is modified — and this is a silent early return, not an
error. -/
theorem claim_C5_missing_begin (targ_ns targ_dist filter_cg under_cgroup : Bool)
    (vec_nr now now2 : Nat) (name : String)
    (st : Softirqs.State) (st2 : Hardirqs.State)
    (h : st.start = none) (h2 : st2.start = none) :
    Softirqs.handle_exit targ_ns targ_dist vec_nr now st = st ∧
    Hardirqs.handle_exit filter_cg under_cgroup targ_ns targ_dist name now2 st2 = st2 := by
  constructor
  · unfold Softirqs.handle_exit
    split
    · rfl
    · simp [h]
  · unfold Hardirqs.handle_exit
    split
    · rfl
    · simp [h2]

theorem claim_C5_missing_begin_witness :
    Softirqs.init.start = none ∧
    Softirqs.handle_exit true false 0 150 Softirqs.init = Softirqs.init ∧
    Hardirqs.handle_exit false false true false "irq17" 150
      { start := none, infos := [] } = { start := none, infos := [] } := by
  have h := claim_C5_missing_begin true false false false 0 150 150 "irq17"
    Softirqs.init { start := none, infos := [] } rfl rfl
  exact ⟨rfl, h.1, h.2⟩

/-- C6: a second begin on the same context with no intervening end
overwrites the first begin's timestamp (`bpf_map_update_elem` with
`BPF_ANY`), so the state after two begins equals the state after the second
begin alone, and the next end therefore computes its delta from the second
begin's timestamp only.  The same holds for the hardirqs entry handler in
timing mode when the cgroup filter does not drop the events. -/
theorem claim_C6_last_begin_wins (targ_ns targ_dist filter_cg under_cgroup : Bool)
    (v1 v2 vec t1 t2 t3 : Nat) (name : String)
    (st : Softirqs.State) (st2 : Hardirqs.State)
    (hfc : (filter_cg && !under_cgroup) = false) :
    Softirqs.handle_entry v2 t2 (Softirqs.handle_entry v1 t1 st)
      = Softirqs.handle_entry v2 t2 st ∧
    (Softirqs.handle_entry v2 t2 (Softirqs.handle_entry v1 t1 st)).start = some t2 ∧
    Softirqs.handle_exit targ_ns targ_dist vec t3
        (Softirqs.handle_entry v2 t2 (Softirqs.handle_entry v1 t1 st))
      = Softirqs.handle_exit targ_ns targ_dist vec t3 (Softirqs.handle_entry v2 t2 st) ∧
    Hardirqs.handle_entry filter_cg under_cgroup false name t2
        (Hardirqs.handle_entry filter_cg under_cgroup false name t1 st2)
      = Hardirqs.handle_entry filter_cg under_cgroup false name t2 st2 ∧
    (Hardirqs.handle_entry filter_cg under_cgroup false name t2
        (Hardirqs.handle_entry filter_cg under_cgroup false name t1 st2)).start = some t2 := by
  refine ⟨rfl, rfl, rfl, ?_, ?_⟩
  · unfold Hardirqs.handle_entry
    rw [hfc]
    simp
  · unfold Hardirqs.handle_entry
    rw [hfc]
    simp

theorem claim_C6_last_begin_wins_witness :
    ((false : Bool) && !true) = false ∧
    (Softirqs.handle_entry 0 200 (Softirqs.handle_entry 0 100 Softirqs.init)).start = some 200 ∧
    (Softirqs.handle_exit true false 0 250
        (Softirqs.handle_entry 0 200 (Softirqs.handle_entry 0 100 Softirqs.init))).time.getD 0 0
      = 50 := by
  have h := claim_C6_last_begin_wins true false false true 0 0 0 100 200 250 "irq17"
    Softirqs.init { start := none, infos := [] } (by decide)
  refine ⟨by decide, h.2.1, ?_⟩
  rw [h.2.2.1]
  rfl

/-- C7: when the cgroup filter is configured (`filter_cg`) and the end
event's scope does not match (`bpf_current_task_under_cgroup` returns
false), the hardirqs exit handler returns before touching anything: no sum
field and no histogram slot changes, in either mode, whatever begins
preceded. -/
theorem claim_C7_filtered_end_no_update (targ_ns targ_dist : Bool) (name : String)
    (now : Nat) (st : Hardirqs.State) :
    Hardirqs.handle_exit true false targ_ns targ_dist name now st = st := by
  unfold Hardirqs.handle_exit
  rfl

/-- C10: the softirqs entry handler stores the begin timestamp without
inspecting the vector number — also for `vec_nr ≥ NR_SOFTIRQS`, overwriting
whatever pending timestamp the context held — while the exit handler
validates the vector number and leaves the state untouched for an
out-of-range vector. -/
theorem claim_C10_entry_unvalidated (targ_ns targ_dist : Bool) (vec vec2 ts t2 : Nat)
    (st st2 : Softirqs.State) (h : NR_SOFTIRQS ≤ vec2) :
    (Softirqs.handle_entry vec ts st).start = some ts ∧
    (Softirqs.handle_entry vec2 ts st).start = some ts ∧
    Softirqs.handle_exit targ_ns targ_dist vec2 t2 st2 = st2 := by
  refine ⟨rfl, rfl, ?_⟩
  unfold Softirqs.handle_exit
  rw [if_pos h]

theorem claim_C10_entry_unvalidated_witness :
    NR_SOFTIRQS ≤ 12 ∧
    (Softirqs.handle_entry 12 777 (Softirqs.handle_entry 3 100 Softirqs.init)).start = some 777 ∧
    Softirqs.handle_exit true false 12 800 Softirqs.init = Softirqs.init := by
  have h := claim_C10_entry_unvalidated true false 12 12 777 800
    (Softirqs.handle_entry 3 100 Softirqs.init) Softirqs.init (by decide)
  exact ⟨by decide, h.2.1, h.2.2⟩

theorem getD_replicate_of_lt {α : Type} (n i : Nat) (a d : α) (h : i < n) :
    (List.replicate n a).getD i d = a := by
  induction n generalizing i with
  | zero => omega
  | succ m ih =>
    cases i with
    | zero => simp [List.replicate, List.getD]
    | succ j =>
      simp only [List.replicate, List.getD_cons_succ]
      exact ih j (by omega)

theorem Softirqs.init_wf : Softirqs.init.wf := by decide

/-- C3 counterexample: the claim's example scenario (nanosecond sum mode, no
filter, begin at t=1000, matched end at t=1500 for category "irq17") run
against the hardirqs exit handler yields `count = 500`, because the source
performs `info->count += delta` on the end event — it does not increment a
count by 1 and a separate total_time by the delta as the claim states
(`count:1, total_time:500`). -/
theorem claim_C3_counterexample :
    ((Hardirqs.handle_exit false false true false "irq17" 1500
        (Hardirqs.handle_entry false false false "irq17" 1000
          { start := none, infos := [] })).info "irq17").map Hardirqs.Info.count
      = some 500 ∧
    ((Hardirqs.handle_exit false false true false "irq17" 1500
        (Hardirqs.handle_entry false false false "irq17" 1000
          { start := none, infos := [] })).info "irq17").map Hardirqs.Info.count
      ≠ some 1 := by
  constructor
  · rfl
  · decide

/-- C3 amended: in softirqs sum mode every matched end event increments the
category's occurrence count (`counts[vec_nr]`) by exactly 1 and its
cumulative time (`time[vec_nr]`) by the computed delta, so N matched ends
give count N, and the example scenario (begin 1000, end 1500, nanoseconds)
yields count 1 and total time 500; the hardirqs end event instead adds the
delta to the category's single `count` field (500 in the example), with no
separate total-time update. -/
theorem claim_C3_amended (targ_ns : Bool) (vec : Nat) (ps : List (Nat × Nat))
    (st : Softirqs.State) (hwf : st.wf) (hv : vec < NR_SOFTIRQS) :
    (Softirqs.runPairs targ_ns false vec ps st).counts.getD vec 0
      = st.counts.getD vec 0 + ps.length ∧
    (Softirqs.runPair true false vec Softirqs.init (1000, 1500)).counts.getD vec 0 = 1 ∧
    (Softirqs.runPair true false vec Softirqs.init (1000, 1500)).time.getD vec 0 = 500 ∧
    ((Hardirqs.handle_exit false false true false "irq17" 1500
        (Hardirqs.handle_entry false false false "irq17" 1000
          { start := none, infos := [] })).info "irq17").map Hardirqs.Info.count
      = some 500 := by
  refine ⟨Softirqs.runPairs_counts targ_ns vec ps st hwf hv, ?_, ?_, rfl⟩
  · rw [Softirqs.runPair_counts true vec Softirqs.init (1000, 1500) Softirqs.init_wf hv]
    unfold Softirqs.init
    rw [getD_replicate_of_lt _ _ _ _ hv]
  · rw [Softirqs.runPair_sum_eq true vec Softirqs.init (1000, 1500) hv]
    have hlen : Softirqs.init.time.length = NR_SOFTIRQS := by decide
    rw [getD_set_self _ _ _ _ (by omega)]
    have h0 : Softirqs.init.time.getD vec 0 = 0 := by
      unfold Softirqs.init
      rw [getD_replicate_of_lt _ _ _ _ hv]
    rw [h0]
    decide

theorem claim_C3_amended_witness :
    Softirqs.init.wf ∧ 0 < NR_SOFTIRQS ∧
    (Softirqs.runPairs true false 0 [(1000, 1500), (2000, 2600)] Softirqs.init).counts.getD 0 0
      = 2 := by
  have h := claim_C3_amended true 0 [(1000, 1500), (2000, 2600)] Softirqs.init
    Softirqs.init_wf (by decide)
  refine ⟨Softirqs.init_wf, by decide, ?_⟩
  rw [h.1]
  decide

/-- C8 counterexample: with a cgroup filter configured (`filter_cg` true)
and the event's scope not matching (`bpf_current_task_under_cgroup` false),
the hardirqs entry handler returns before recording anything: the pending
slot stays empty, contradicting the claim that a begin event records its
timestamp regardless of the filter. -/
theorem claim_C8_counterexample :
    (Hardirqs.handle_entry true false false "irq17" 5
        { start := none, infos := [] }).start = none ∧
    (Hardirqs.handle_entry true false false "irq17" 5
        { start := none, infos := [] }).start ≠ some 5 := by
  constructor
  · rfl
  · decide

/-- C8 amended: the hardirqs entry handler applies the cgroup filter first
— a begin event whose scope fails a configured filter changes nothing at
all.  When the filter passes (or is off), the timestamp is recorded into
the pending slot only in timing mode (`do_count` false); in counting mode
the entry increments the category count and leaves the pending slot
unchanged. -/
theorem claim_C8_amended (filter_cg under_cgroup do_count : Bool) (name : String)
    (ts : Nat) (st : Hardirqs.State) :
    (filter_cg = true → under_cgroup = false →
      Hardirqs.handle_entry filter_cg under_cgroup do_count name ts st = st) ∧
    ((filter_cg = false ∨ under_cgroup = true) → do_count = false →
      Hardirqs.handle_entry filter_cg under_cgroup do_count name ts st
        = { st with start := some ts }) ∧
    ((filter_cg = false ∨ under_cgroup = true) → do_count = true →
      (Hardirqs.handle_entry filter_cg under_cgroup do_count name ts st).start
        = st.start) := by
  refine ⟨?_, ?_, ?_⟩
  · intro hf hu
    subst hf; subst hu
    rfl
  · intro hfu hdc
    subst hdc
    unfold Hardirqs.handle_entry
    rcases hfu with hf | hu
    · subst hf; rfl
    · subst hu
      rw [show ∀ b : Bool, (b && !true) = false from fun b => by cases b <;> rfl]
      rfl
  · intro hfu hdc
    subst hdc
    unfold Hardirqs.handle_entry
    rcases hfu with hf | hu
    · subst hf
      simp only [Bool.false_and, Bool.false_eq_true, if_false, if_true]
      split <;> rfl
    · subst hu
      rw [show ∀ b : Bool, (b && !true) = false from fun b => by cases b <;> rfl]
      simp only [Bool.false_eq_true, if_false, if_true]
      split <;> rfl

theorem claim_C8_amended_witness :
    (Hardirqs.handle_entry false true false "irq17" 5 { start := none, infos := [] })
      = { start := some 5, infos := [] } := by
  have h := claim_C8_amended false true false "irq17" 5 { start := none, infos := [] }
  exact h.2.1 (Or.inl rfl) rfl

/-- C2: softirqs histogram mode does behave as claimed — each sample of
duration `d` increments exactly the slot `min (log2 d) (MAX_SLOTS - 1)`
(the clamp of `floor(log2 d)` to `[0, MAX_SLOTS-1]`), and N samples raise
the slot sum by N.  hardirqs histogram mode does not: at the failing input
duration `2^20` (slot `log2 = 20 = MAX_SLOTS`) the clamp line
`slots = MAX_SLOTS - 1;` assigns an undeclared identifier and leaves `slot`
unclamped, so `info->slots[slot]++` targets index 20 of a `MAX_SLOTS`-sized
array — out of bounds, no slot of the histogram is incremented and the slot
sum stays 0 where the claim requires slot 19 to reach 1. -/
theorem claim_C2_hist_slot (targ_ns : Bool) (vec : Nat) (p : Nat × Nat)
    (ps : List (Nat × Nat)) (st : Softirqs.State) (hwf : st.wf) (hv : vec < NR_SOFTIRQS) :
    (Softirqs.runPair targ_ns true vec st p).hists.getD vec []
      = (st.hists.getD vec []).set
          (min (log2 (Softirqs.delta_of targ_ns p.2 p.1)) (MAX_SLOTS - 1))
          ((st.hists.getD vec []).getD
            (min (log2 (Softirqs.delta_of targ_ns p.2 p.1)) (MAX_SLOTS - 1)) 0 + 1) ∧
    (Softirqs.runPair targ_ns true vec st p).histSum vec = st.histSum vec + 1 ∧
    (Softirqs.runPairs targ_ns true vec ps st).histSum vec = st.histSum vec + ps.length ∧
    log2 (Hardirqs.delta_of true 1048576 0) = MAX_SLOTS ∧
    ((Hardirqs.handle_exit false false true true "irq17" 1048576
        { start := some 0, infos := [("irq17", Hardirqs.zero)] }).info "irq17").map
        (fun i => i.slots.sum) = some 0 ∧
    ((Hardirqs.handle_exit false false true true "irq17" 1048576
        { start := some 0, infos := [("irq17", Hardirqs.zero)] }).info "irq17").map
        (fun i => i.slots) = some Hardirqs.zero.slots := by
  obtain ⟨hc, ht, hh, hs⟩ := hwf
  refine ⟨?_, Softirqs.runPair_histSum targ_ns vec st p ⟨hc, ht, hh, hs⟩ hv,
    Softirqs.runPairs_histSum targ_ns vec ps st ⟨hc, ht, hh, hs⟩ hv, by decide, by decide,
    by decide⟩
  rw [Softirqs.runPair_hist_eq targ_ns vec st p hv]
  simp only [clamp_eq_min]
  exact getD_set_self _ _ _ _ (by omega)

theorem claim_C2_hist_slot_witness :
    Softirqs.init.wf ∧ 0 < NR_SOFTIRQS ∧
    (Softirqs.runPair true true 0 Softirqs.init (0, 3)).hists.getD 0 []
      = (List.replicate MAX_SLOTS 0).set 1 1 ∧
    (Softirqs.runPairs true true 0 [(0, 3), (0, 5), (0, 1025)] Softirqs.init).histSum 0 = 3 := by
  have h := claim_C2_hist_slot true 0 (0, 3) [(0, 3), (0, 5), (0, 1025)] Softirqs.init
    Softirqs.init_wf (by decide)
  refine ⟨Softirqs.init_wf, by decide, ?_, ?_⟩
  · rw [h.1]
    decide
  · rw [h.2.2.1]
    decide

/-! ## Concurrency lemmas for C9 -/

theorem set_self_of_get_eq {α : Type} (l : List α) (i : Nat) (v : α)
    (h : l.get? i = some v) : l.set i v = l := by
  induction l generalizing i with
  | nil => simp at h
  | cons a tl ih =>
    cases i with
    | zero =>
      simp only [List.get?] at h
      simp [Option.some_inj.mp h]
    | succ j =>
      simp only [List.get?] at h
      simp [ih j h]

theorem countP_set_of_drop {α : Type} (l : List α) (p : α → Bool) (i : Nat) (t v : α)
    (hget : l.get? i = some t) (hpt : p t = true) (hpv : p v = false) :
    (l.set i v).countP p + 1 = l.countP p := by
  induction l generalizing i with
  | nil => simp at hget
  | cons a tl ih =>
    cases i with
    | zero =>
      simp only [List.get?] at hget
      obtain rfl := Option.some_inj.mp hget
      simp [List.set, List.countP_cons, hpt, hpv]
    | succ j =>
      simp only [List.get?] at hget
      simp only [List.set, List.countP_cons]
      have := ih j hget
      omega

theorem countP_replicate_of_pos {α : Type} (n : Nat) (a : α) (p : α → Bool)
    (hp : p a = true) : (List.replicate n a).countP p = n := by
  induction n with
  | zero => simp
  | succ m ih => simp [List.replicate, List.countP_cons, hp, ih]

theorem Conc.inv_step (d total : Nat) (s : Conc.CState) (i : Nat)
    (h : Conc.Inv d total s) : Conc.Inv d total (Conc.step s i) := by
  rcases h with ⟨hsum, hall⟩
  unfold Conc.step
  cases hg : s.threads.get? i with
  | none => exact ⟨hsum, hall⟩
  | some t =>
    have hmem : t ∈ s.threads := List.get?_mem hg
    rcases hall t hmem with hnil | hfa
    · have hst : Conc.stepThread s.shared t = (s.shared, t) := by
        unfold Conc.stepThread
        rw [hnil]
      simp only [hst]
      rw [set_self_of_get_eq _ _ _ hg]
      exact ⟨hsum, hall⟩
    · have hst : Conc.stepThread s.shared t =
          (s.shared + d, { prog := [], reg := t.reg }) := by
        unfold Conc.stepThread
        rw [hfa]
        rfl
      simp only [hst]
      constructor
      · have hcount := countP_set_of_drop s.threads (fun t => !t.prog.isEmpty) i t
          { prog := [], reg := t.reg } hg
          (by show (!t.prog.isEmpty) = true; rw [hfa]; rfl) rfl
        show s.shared + d +
            d * (s.threads.set i { prog := [], reg := t.reg }).countP
              (fun t => !t.prog.isEmpty) = total
        rw [← hsum, ← hcount]
        ring
      · intro x hx
        rcases List.mem_or_eq_of_mem_set hx with h1 | h1
        · exact hall x h1
        · rw [h1]
          exact Or.inl rfl

theorem Conc.inv_run (d total : Nat) (sched : List Nat) :
    ∀ s : Conc.CState, Conc.Inv d total s → Conc.Inv d total (Conc.run s sched) := by
  induction sched with
  | nil => intro s h; exact h
  | cons i sc ih =>
    intro s h
    exact ih _ (Conc.inv_step d total s i h)

theorem Conc.inv_start (d c0 n : Nat) :
    Conc.Inv d (c0 + d * n)
      { shared := c0, threads := List.replicate n { prog := Conc.fetchAndAddProg d, reg := 0 } } := by
  constructor
  · show c0 + d * (List.replicate n
        ({ prog := Conc.fetchAndAddProg d, reg := 0 } : Conc.Thread)).countP
          (fun t => !t.prog.isEmpty) = c0 + d * n
    have hrep := countP_replicate_of_pos n
      ({ prog := Conc.fetchAndAddProg d, reg := 0 } : Conc.Thread)
      (fun (t : Conc.Thread) => !t.prog.isEmpty) rfl
    rw [hrep]
  · intro t ht
    rw [List.eq_of_mem_replicate ht]
    exact Or.inr rfl

/-- C9 counterexample: hardirqs.bpf.c updates its aggregates with plain
read-modify-write (`info->count += delta`, `info->slots[slot]++`), not with
atomic fetch-and-add.  Two concurrent end events each adding delta = 500,
interleaved read/read/write/write, run to completion yet leave the total at
500 instead of 2 * 500: an update is lost, refuting the claim that all
aggregate updates are fetch-and-add and always sum to N * delta. -/
theorem claim_C9_counterexample :
    (Conc.run
        { shared := 0,
          threads := [{ prog := Conc.plainAddProg 500, reg := 0 },
                      { prog := Conc.plainAddProg 500, reg := 0 }] }
        [0, 1, 0, 1]).done = true ∧
    (Conc.run
        { shared := 0,
          threads := [{ prog := Conc.plainAddProg 500, reg := 0 },
                      { prog := Conc.plainAddProg 500, reg := 0 }] }
        [0, 1, 0, 1]).shared = 500 ∧
    (Conc.run
        { shared := 0,
          threads := [{ prog := Conc.plainAddProg 500, reg := 0 },
                      { prog := Conc.plainAddProg 500, reg := 0 }] }
        [0, 1, 0, 1]).shared ≠ 2 * 500 := by
  refine ⟨by decide, by decide, by decide⟩

/-- C9 amended: the softirqs.bpf.c updates (`counts`, `time`, histogram
slots) are `__sync_fetch_and_add`, an indivisible step, and N concurrent
end events for the same category each adding a fixed `d` leave the shared
total at exactly `N * d` under every interleaving; the hardirqs.bpf.c
sum-mode and histogram updates are plain non-atomic read-modify-writes and
can lose updates under interleaving (see the counterexample). -/
theorem claim_C9_amended (n d c0 : Nat) (sched : List Nat)
    (h : (Conc.run
        { shared := c0, threads := List.replicate n { prog := Conc.fetchAndAddProg d, reg := 0 } }
        sched).done = true) :
    (Conc.run
        { shared := c0, threads := List.replicate n { prog := Conc.fetchAndAddProg d, reg := 0 } }
        sched).shared = c0 + n * d := by
  have hinv := Conc.inv_run d (c0 + d * n) sched _ (Conc.inv_start d c0 n)
  rcases hinv with ⟨hsum, _⟩
  have hcount : (Conc.run
      { shared := c0, threads := List.replicate n { prog := Conc.fetchAndAddProg d, reg := 0 } }
      sched).threads.countP (fun t => !t.prog.isEmpty) = 0 := by
    rw [List.countP_eq_zero]
    intro t ht
    have hdone := List.all_eq_true.mp h t ht
    simp [hdone]
  rw [hcount, Nat.mul_zero, Nat.add_zero] at hsum
  rw [hsum, Nat.mul_comm]

theorem claim_C9_amended_witness :
    (Conc.run
        { shared := 0, threads := List.replicate 2 { prog := Conc.fetchAndAddProg 500, reg := 0 } }
        [0, 1]).done = true ∧
    (Conc.run
        { shared := 0, threads := List.replicate 2 { prog := Conc.fetchAndAddProg 500, reg := 0 } }
        [0, 1]).shared = 0 + 2 * 500 :=
  ⟨by decide, claim_C9_amended 2 500 0 [0, 1] (by decide)⟩
